import Mathlib

/-!
Verification development for the training core in `src/model/train.py` and
`src/model/train_lstm.py` of the `unfair` repository.

The embedding conventions:
* numpy float arithmetic is modelled exactly, over `ℝ` where the code takes a
  square root (`np.std`) and over `ℚ` elsewhere;
* a structured numpy array is modelled as a list of named-free columns
  (`List (List ℝ)` / `List (List ℚ)`), rows of the merged matrix as lists;
* fatal `assert` failures are modelled with `Except String`;
* the nondeterministic `np.random.shuffle` is modelled by quantifying over the
  permutation it realises;
* model snapshots handled by `torch.jit.save`/`torch.jit.load` are abstracted
  as integers (their content is irrelevant to the control flow).
-/

/-! ## Scaling engine: `scale_fets` (train.py lines 44-119) -/

/-- Mean of a list of reals, as computed by `np.mean` (the empty case is never
hit by the code; `0/0 = 0` here). -/
noncomputable def lmean (xs : List ℝ) : ℝ := xs.sum / xs.length

/-- Population variance, the square of `np.std`. -/
noncomputable def lvar (xs : List ℝ) : ℝ :=
  lmean (xs.map (fun x => (x - lmean xs) ^ 2))

/-- `np.std`: square root of the population variance. -/
noncomputable def lstd (xs : List ℝ) : ℝ := Real.sqrt (lvar xs)

/-- Pointwise standardize transform of train.py lines 98-106: if the group's
std (`prm_2`) is zero the output is zero, else `(x - mean) / std`. -/
noncomputable def stdScale (m s x : ℝ) : ℝ := if s = 0 then 0 else (x - m) / s

/-- Pointwise range transform of train.py lines 107-116.  `utils.scale` is not
under src/; the linear map to `[0,1]` is modelled from the spec
("transform maps linearly to [0,1]"): `(x - min) / (max - min)`.  The
degenerate `min = max` guard (lines 113-114) is in src/. -/
noncomputable def rngScale (mn mx x : ℝ) : ℝ :=
  if mn = mx then 0 else (x - mn) / (mx - mn)

/-- The columns (with their scaling-group tags) belonging to scaling group `g`
(train.py lines 74-77). -/
def groupCols (l : List (List ℝ × ℕ)) (g : ℕ) : List (List ℝ) :=
  (l.filter (fun p => p.2 == g)).map Prod.fst

/-- Pooled values of scaling group `g`: all values of all columns of the group
(`utils.clean` is not under src/; modelled from the spec: parameters are
"derived from the pooled values of all columns in that group"). -/
def pooledOf (l : List (List ℝ × ℕ)) (g : ℕ) : List ℝ :=
  (groupCols l g).flatten

/-- Scaling parameters of the feature carried by `p` in standardize mode:
the pooled mean and pooled std of its scaling group (train.py lines 79-84,
92-96). -/
noncomputable def sclPrmStd (l : List (List ℝ × ℕ)) (p : List ℝ × ℕ) : ℝ × ℝ :=
  (lmean (pooledOf l p.2), lstd (pooledOf l p.2))

/-- Output column for the feature carried by `p` in standardize mode. -/
noncomputable def colOutStd (l : List (List ℝ × ℕ)) (p : List ℝ × ℕ) : List ℝ :=
  p.1.map (stdScale (lmean (pooledOf l p.2)) (lstd (pooledOf l p.2)))

/-- Standardize mode of `scale_fets` on an already zipped column/group list. -/
noncomputable def scaleRowsStd (l : List (List ℝ × ℕ)) : List (List ℝ) :=
  l.map (colOutStd l)

/-- `scale_fets(dat, scl_grps, standardize=True)`: the returned rescaled
columns (train.py lines 44-119, standardize branch). -/
noncomputable def scale_fets_std (cols : List (List ℝ)) (grps : List ℕ) :
    List (List ℝ) :=
  scaleRowsStd (cols.zip grps)

/-- The per-feature scaling-parameter table returned by `scale_fets` in
standardize mode (train.py lines 88-96). -/
noncomputable def scl_prms_std (cols : List (List ℝ)) (grps : List ℕ) :
    List (ℝ × ℝ) :=
  (cols.zip grps).map (sclPrmStd (cols.zip grps))

/-- `min` reduction of a nonempty list (the empty default is never hit by the
code: `np.min` raises on empty input). -/
noncomputable def listMin : List ℝ → ℝ
  | [] => 0
  | x :: xs => xs.foldl min x

/-- `max` reduction of a nonempty list. -/
noncomputable def listMax : List ℝ → ℝ
  | [] => 0
  | x :: xs => xs.foldl max x

/-- The `rdc` helper of train.py lines 68-70 applied with `np.min`:
min over the per-column mins of the group. -/
noncomputable def rdcMin (cs : List (List ℝ)) : ℝ := listMin (cs.map listMin)

/-- The `rdc` helper applied with `np.max`. -/
noncomputable def rdcMax (cs : List (List ℝ)) : ℝ := listMax (cs.map listMax)

/-- Output column for the feature carried by `p` in range mode
(train.py lines 107-117). -/
noncomputable def colOutRng (l : List (List ℝ × ℕ)) (p : List ℝ × ℕ) : List ℝ :=
  p.1.map (rngScale (rdcMin (groupCols l p.2)) (rdcMax (groupCols l p.2)))

/-- `scale_fets(dat, scl_grps, standardize=False)`: the rescaled columns in
range mode. -/
noncomputable def scale_fets_range (cols : List (List ℝ)) (grps : List ℕ) :
    List (List ℝ) :=
  (cols.zip grps).map (colOutRng (cols.zip grps))

/-! ## Sentinel repair in `make_datasets` (train.py lines 316-327) -/

/-- Column mean over `ℚ` (`np.mean` at line 325; the column is nonempty in
every reachable call). -/
def colMean (xs : List ℚ) : ℚ := xs.sum / xs.length

/-- Repair of one input-feature column, from train.py lines 318-327: an
all-sentinel column is a fatal unusable-feature error (line 327); otherwise
every `-1` entry is replaced by `np.mean` of the column, and the per-column
assertion of line 326 is checked. -/
def repair_fet (xs : List ℚ) : Except String (List ℚ) :=
  if xs.all (fun x => x == -1) then
    Except.error "Features contain only -1"
  else
    let ys := xs.map (fun x => if x == -1 then colMean xs else x)
    if ys.all (fun x => !(x == -1)) then Except.ok ys
    else Except.error "Found -1 in feature"

/-- Sentinel repair over all input-feature columns. -/
def repair_fets (cols : List (List ℚ)) : Except String (List (List ℚ)) :=
  cols.mapM repair_fet

/-- The known (non-sentinel) values of a column. -/
def knownVals (xs : List ℚ) : List ℚ := xs.filter (fun x => !(x == -1))

/-- Modelled from the spec's words, for comparison with `repair_fet`:
"a feature value of a reserved sentinel is replaced by that feature's mean
over all *known* values in the dataset". -/
def spec_repair_fet (xs : List ℚ) : Except String (List ℚ) :=
  if xs.all (fun x => x == -1) then
    Except.error "Features contain only -1"
  else
    Except.ok (xs.map (fun x => if x == -1 then colMean (knownVals xs) else x))

/-! ## Row accounting in `process_sim` (train.py lines 122-198) -/

/-- Index where the kept rows start: `math.floor(rows * warmup_prc / 100)`
(train.py line 142). -/
def warmup_start (n : ℕ) (w : ℚ) : ℕ := (⌊((n : ℚ) * w) / 100⌋).toNat

/-- `dat = dat[floor(rows * warmup_prc / 100):]` (train.py line 142). -/
def drop_warmup (w : ℚ) (dat : List α) : List α :=
  dat.drop (warmup_start dat.length w)

/-- `num_to_pick = math.ceil(num_rows * keep_prc / 100)` (train.py line 186). -/
def num_to_pick (n : ℕ) (k : ℚ) : ℕ := (⌈((n : ℚ) * k) / 100⌉).toNat

/-- Fancy-indexing `dat_in[idxs]` (train.py lines 187-191): one output row per
index, rows may repeat. -/
def pick_rows (idxs : List ℕ) (dat : List α) : List α :=
  idxs.filterMap (fun i => dat[i]?)

/-- Usable row count of one simulation as the code computes it:
`ceil(keep% of (raw - floor(warmup% of raw)))`. -/
def usable_rows (n : ℕ) (w k : ℚ) : ℕ := num_to_pick (n - warmup_start n w) k

/-- Modelled from the spec's words, for comparison with `usable_rows`:
"each simulation's usable row count is `ceil(0.5 * floor(0.9 * raw_rows))`". -/
def spec_usable_rows (n : ℕ) : ℕ :=
  (⌈(1 / 2 : ℚ) * ((⌊(9 / 10 : ℚ) * (n : ℚ)⌋ : ℤ) : ℚ)⌉).toNat

/-- Row-wise concatenation of the per-simulation results
(`np.concatenate(..., axis=0)`, train.py lines 309-314). -/
def concat_sims (parts : List (List β)) : List β := parts.flatten

/-! ## `split_data` (train.py lines 366-416) -/

/-- One example before the merge: the input-feature row plus the four scalar
parallel values (label, raw label, oracle label, flow count). -/
structure SplitRow where
  ins : List ℚ
  out : ℚ
  raw : ℚ
  oracle : ℚ
  nf : ℚ

/-- One row of the merged matrix (train.py lines 390-391):
input columns, then label, raw label, oracle label, flow count. -/
def merge_row (r : SplitRow) : List ℚ := r.ins ++ [r.out, r.raw, r.oracle, r.nf]

/-- The merged matrix after `np.random.shuffle`, for the permutation `p` the
shuffle realised. -/
def shuffle_merged (rows : List SplitRow)
    (p : Fin rows.length ≃ Fin rows.length) : List (List ℚ) :=
  List.ofFn (fun i => merge_row (rows.get (p i)))

/-- `dat_in = merged[:, :num_cols_in]` restricted to one row
(train.py line 393). -/
def row_in (n : ℕ) (row : List ℚ) : List ℚ := row.take n

/-- `merged[:, j]` restricted to one row (train.py lines 394-397). -/
def row_col (j : ℕ) (row : List ℚ) : ℚ := row.getD j 0

/-- Python `round` on exact values: round half to even (train.py lines
401-402 go through `int(round(...))`). -/
def py_round (q : ℚ) : ℤ :=
  if q - ⌊q⌋ < 1 / 2 then ⌊q⌋
  else if q - ⌊q⌋ > 1 / 2 then ⌊q⌋ + 1
  else if ⌊q⌋ % 2 = 0 then ⌊q⌋ else ⌊q⌋ + 1

/-- `num_val = int(round(num_exps * 0.2)) if use_val else 0`
(train.py line 401). -/
def num_val (n : ℕ) (useVal : Bool) : ℕ :=
  if useVal then (py_round ((n : ℚ) * (2 / 10))).toNat else 0

/-- `num_tst = int(round(num_exps * 0.3))` (train.py line 402). -/
def num_tst (n : ℕ) : ℕ := (py_round ((n : ℚ) * (3 / 10))).toNat

/-- The validation/test/train partition of train.py lines 405-416:
`dat[:num_val]`, `dat[num_val:num_val+num_tst]`, `dat[num_val+num_tst:]`. -/
def split_dat (dat : List α) (useVal : Bool) : List α × List α × List α :=
  (dat.take (num_val dat.length useVal),
   (dat.drop (num_val dat.length useVal)).take (num_tst dat.length),
   dat.drop (num_val dat.length useVal + num_tst dat.length))

/-! ## Early-stopping controller in `train` (train.py lines 484-592) -/

/-- The controller state across validation passes: lowest validation loss so
far (`los_val_min`, `None` before the first pass), remaining patience
(`val_pat`), the persisted checkpoint (`None` iff no checkpoint file exists),
and the live model.  Model snapshots are abstracted as integers. -/
structure TrainState where
  best : Option ℚ
  pat : ℤ
  ckpt : Option ℤ
  live : ℤ

/-- One validation pass of train.py lines 561-583: seed `los_val_min` with the
first observed loss, compute the percent improvement, and either record the
new best / reset patience / persist a checkpoint, or decrement patience and
roll the live model back to the checkpoint when one exists. -/
def val_step (thresh : ℚ) (patMax : ℤ) (los : ℚ) (s : TrainState) : TrainState :=
  let best0 := s.best.getD los
  if (best0 - los) / best0 * 100 > thresh then
    { best := some los, pat := patMax, ckpt := some s.live, live := s.live }
  else
    { best := some best0, pat := s.pat - 1, ckpt := s.ckpt,
      live := match s.ckpt with | some m => m | none => s.live }

/-- The sequence of validation passes, together with the stop check of
train.py lines 584-586: returns the number of validation passes consumed when
patience reaches zero, `none` when the loss sequence ends first. -/
def es_run (thresh : ℚ) (patMax : ℤ) (s : TrainState) : List ℚ → Option ℕ
  | [] => none
  | l :: ls =>
    let t := val_step thresh patMax l s
    if t.pat ≤ 0 then some 1
    else (es_run thresh patMax t ls).map (fun k => k + 1)

/-! ## Trial orchestration: `run_trials` (train.py lines 799-826) -/

/-- The retry loop of train.py lines 800-817.  `f i` is the `(accuracy,
duration)` result of attempt `i`; accuracy `100` is the degenerate-failure
sentinel.  Returns the final attempt count and the collected results. -/
def run_trials_loop (f : ℕ → ℚ × ℚ) (aptsMax : ℕ) (trls : ℤ) (apts : ℕ)
    (ress : List (ℚ × ℚ)) : ℕ × List (ℚ × ℚ) :=
  if 0 < trls ∧ apts < aptsMax then
    if (f apts).1 = 100 then
      run_trials_loop f aptsMax trls (apts + 1) ress
    else
      run_trials_loop f aptsMax (trls - 1) (apts + 1) (ress ++ [f apts])
  else (apts, ress)
termination_by aptsMax - apts
decreasing_by all_goals omega

/-- `max(ress, key=lambda p: p[0])`: the first result with maximal accuracy
(train.py line 821; the empty default is never hit by the code). -/
def max_by_acc : List (ℚ × ℚ) → ℚ × ℚ
  | [] => (0, 0)
  | r :: rs => rs.foldl (fun best q => if q.1 > best.1 then q else best) r

/-- `run_trials` result (train.py lines 818-826): attempt count, and either
`(1 - max accuracy, duration of that trial)` or `none`, which models the
`(float("NaN"), float("NaN"))` not-trainable sentinel. -/
def run_trials (f : ℕ → ℚ × ℚ) (confTrials : ℤ) (aptsMax : ℕ) :
    ℕ × Option (ℚ × ℚ) :=
  let r := run_trials_loop f aptsMax confTrials 0 []
  (r.1,
   if r.2.isEmpty then none
   else some (1 - (max_by_acc r.2).1, (max_by_acc r.2).2))


/-! ## Helper lemmas -/

theorem pick_rows_length {α : Type} (idxs : List ℕ) (dat : List α)
    (h : ∀ i ∈ idxs, i < dat.length) :
    (pick_rows idxs dat).length = idxs.length := by
  induction idxs with
  | nil => rfl
  | cons i is ih =>
    have hi : i < dat.length := h i (List.mem_cons_self i is)
    have hsome : dat[i]? = some dat[i] := List.getElem?_eq_getElem hi
    simp only [pick_rows, List.filterMap_cons, hsome, List.length_cons]
    have := ih (fun j hj => h j (List.mem_cons_of_mem i hj))
    simp only [pick_rows] at this
    omega

theorem repair_fets_ok (cols : List (List ℚ)) (ys : List (List ℚ))
    (h : repair_fets cols = Except.ok ys) :
    ys.length = cols.length ∧
    ∀ col ∈ cols, col.all (fun x => x == -1) = false := by
  induction cols generalizing ys with
  | nil =>
    simp only [repair_fets, List.mapM_nil, pure] at h
    cases h
    exact ⟨rfl, by simp⟩
  | cons c cs ih =>
    simp only [repair_fets, List.mapM_cons] at h
    cases hc : repair_fet c with
    | error e => rw [hc] at h; simp [Bind.bind, Except.bind] at h
    | ok b =>
      rw [hc] at h
      cases hcs : cs.mapM repair_fet with
      | error e => rw [hcs] at h; simp [Bind.bind, Except.bind] at h
      | ok bs =>
        rw [hcs] at h
        simp only [Bind.bind, Except.bind, pure, Except.pure,
          Except.ok.injEq] at h
        subst h
        have hcall : c.all (fun x => x == -1) = false := by
          by_contra hall
          have hv : c.all (fun x => x == -1) = true := by
            cases hw : c.all (fun x => x == -1)
            · exact absurd hw hall
            · rfl
          simp [repair_fet, hv] at hc
        have hrec := ih bs hcs
        refine ⟨by simpa using hrec.1, ?_⟩
        intro col hcol
        rcases List.mem_cons.mp hcol with hcol | hcol
        · exact hcol ▸ hcall
        · exact hrec.2 col hcol

/-! ## Claim theorems: C1 -/

/-- C1 counterexample: on the merged column `[0, -1]` the code replaces the
sentinel with the mean over *all* values, `-1/2`, while the claimed
known-values mean is `0`; the two repairs disagree. -/
theorem c1_counterexample :
    repair_fet [0, -1] = Except.ok [0, -(1 / 2)] ∧
    spec_repair_fet [0, -1] = Except.ok [0, 0] ∧
    repair_fet [0, -1] ≠ spec_repair_fet [0, -1] := by
  refine ⟨by norm_num [repair_fet, colMean],
    by norm_num [spec_repair_fet, knownVals, colMean],
    by norm_num [repair_fet, spec_repair_fet, knownVals, colMean]⟩

/-- C1 (amended): in `make_datasets`, every `-1` in an input-feature column is
replaced by the column's mean computed over **all** of its values (sentinels
included, `np.mean(fet_values)` at line 325); an all-sentinel column is a
fatal unusable-feature error, and a successful repair keeps every column
(none is silently dropped). -/
theorem c1_amended (cols : List (List ℚ)) (xs : List ℚ) :
    (xs.all (fun x => x == -1) = true →
      repair_fet xs = Except.error "Features contain only -1") ∧
    (xs.all (fun x => x == -1) = false → colMean xs ≠ -1 →
      repair_fet xs =
        Except.ok (xs.map (fun x => if x == -1 then colMean xs else x))) ∧
    (∀ ys, repair_fets cols = Except.ok ys →
      ys.length = cols.length ∧
      ∀ col ∈ cols, col.all (fun x => x == -1) = false) := by
  refine ⟨fun h => by simp [repair_fet, h], fun h hm => ?_,
    fun ys hys => repair_fets_ok cols ys hys⟩
  simp only [repair_fet, h, Bool.false_eq_true, if_false]
  have hall : (xs.map (fun x => if x == -1 then colMean xs else x)).all
      (fun x => !(x == -1)) = true := by
    rw [List.all_eq_true]
    intro y hy
    rcases List.mem_map.mp hy with ⟨x, hxm, rfl⟩
    by_cases hx : x = -1
    · simp [hx, hm]
    · simp [beq_eq_false_iff_ne.mpr hx, hx]
  simp only [hall, if_true]

/-- Witness for `c1_amended` at the columns `[1, -1]` and `[-1, -1]`. -/
theorem c1_amended_witness :
    repair_fet [(1 : ℚ), -1] =
      Except.ok ([(1 : ℚ), -1].map
        (fun x => if x == -1 then colMean [(1 : ℚ), -1] else x)) ∧
    repair_fet [(-1 : ℚ), -1] = Except.error "Features contain only -1" :=
  ⟨(c1_amended [] [(1 : ℚ), -1]).2.1 (by norm_num)
      (by norm_num [colMean]),
   (c1_amended [] [(-1 : ℚ), -1]).1 (by norm_num)⟩

/-! ## Claim theorems: C2 -/

/-- C2 counterexample: a simulation with 12 raw rows yields
`ceil(0.5 * (12 - floor(0.1 * 12))) = 6` usable rows under the code, while the
claimed formula `ceil(0.5 * floor(0.9 * 12))` gives `5`. -/
theorem c2_counterexample :
    usable_rows 12 10 50 = 6 ∧ spec_usable_rows 12 = 5 ∧
    usable_rows 12 10 50 ≠ spec_usable_rows 12 := by
  have h6 : usable_rows 12 10 50 = 6 := by
    norm_num [usable_rows, num_to_pick, warmup_start]
    rw [show (⌈(11 : ℚ) / 2⌉ : ℤ) = 6 from Int.ceil_eq_iff.mpr (by norm_num)]
    decide
  have h5 : spec_usable_rows 12 = 5 := by
    norm_num [spec_usable_rows]
    decide
  exact ⟨h6, h5, by rw [h6, h5]; decide⟩

/-- C2 (amended): with `warmup_percent = 10` and `keep_percent = 50`, a
non-discarded simulation with `raw_rows` loaded rows produces exactly
`ceil(0.5 * (raw_rows - floor(0.1 * raw_rows)))` usable rows (the warmup slice
keeps `raw - floor(0.1*raw)` rows, not `floor(0.9*raw)`), assuming the model's
data transform preserves row count; the assembled dataset's row count is the
sum of the per-simulation counts. -/
theorem c2_amended {α β : Type} (dat : List α) (modify : List α → List β)
    (hmod : (modify (drop_warmup 10 dat)).length = (drop_warmup 10 dat).length)
    (idxs : List ℕ)
    (hlen : idxs.length = num_to_pick (modify (drop_warmup 10 dat)).length 50)
    (hin : ∀ i ∈ idxs, i < (modify (drop_warmup 10 dat)).length) :
    (pick_rows idxs (modify (drop_warmup 10 dat))).length =
      usable_rows dat.length 10 50 ∧
    ∀ parts : List (List β),
      (concat_sims parts).length = (parts.map List.length).sum := by
  constructor
  · rw [pick_rows_length idxs _ hin, hlen, hmod]
    have hd : (drop_warmup 10 dat).length =
        dat.length - warmup_start dat.length 10 := by
      simp [drop_warmup]
    rw [hd]
    rfl
  · intro parts
    simp [concat_sims]

/-- Witness for `c2_amended`: 12 raw rows, identity transform, the sampled
index list `[0,1,2,3,4,5]` of the prescribed length 6. -/
theorem c2_amended_witness :
    (pick_rows [0, 1, 2, 3, 4, 5]
        (id (drop_warmup 10 (List.range 12)))).length =
      usable_rows (List.range 12).length 10 50 ∧
    (concat_sims [[(0 : ℕ)], [1, 2]]).length =
      ([[(0 : ℕ)], [1, 2]].map List.length).sum := by
  have hl : (id (drop_warmup 10 (List.range 12)) : List ℕ).length = 11 := by
    have hw : warmup_start 12 10 = 1 := by norm_num [warmup_start]
    simp [drop_warmup, hw]
  have h1 : ([0, 1, 2, 3, 4, 5] : List ℕ).length =
      num_to_pick (id (drop_warmup 10 (List.range 12)) : List ℕ).length 50 := by
    rw [hl]
    norm_num [num_to_pick]
    rw [show (⌈(11 : ℚ) / 2⌉ : ℤ) = 6 from Int.ceil_eq_iff.mpr (by norm_num)]
    decide
  have h2 : ∀ i ∈ ([0, 1, 2, 3, 4, 5] : List ℕ),
      i < (id (drop_warmup 10 (List.range 12)) : List ℕ).length := by
    rw [hl]
    decide
  exact ⟨(c2_amended (List.range 12) id rfl [0, 1, 2, 3, 4, 5] h1 h2).1,
    (c2_amended (List.range 12) id rfl [0, 1, 2, 3, 4, 5] h1 h2).2
      [[(0 : ℕ)], [1, 2]]⟩

/-! ## Claim theorems: C6 (split sizes) -/

theorem py_round_le (q : ℚ) : (py_round q : ℚ) ≤ q + 1 / 2 := by
  have hf := Int.floor_le q
  unfold py_round
  split_ifs with h1 h2 h3
  · linarith
  · push_cast
    linarith
  · linarith
  · push_cast
    have hq : q - ⌊q⌋ = 1 / 2 := le_antisymm (not_lt.mp h2) (not_lt.mp h1)
    linarith

theorem py_round_nonneg (q : ℚ) (hq : 0 ≤ q) : 0 ≤ py_round q := by
  have hf : 0 ≤ ⌊q⌋ := Int.floor_nonneg.mpr hq
  unfold py_round
  split_ifs <;> omega

theorem split_sizes_le (n : ℕ) (u : Bool) : num_val n u + num_tst n ≤ n := by
  have h0v : 0 ≤ py_round ((n : ℚ) * (2 / 10)) :=
    py_round_nonneg _ (by positivity)
  have h0t : 0 ≤ py_round ((n : ℚ) * (3 / 10)) :=
    py_round_nonneg _ (by positivity)
  have hv : (py_round ((n : ℚ) * (2 / 10)) : ℚ) ≤ (n : ℚ) * (2 / 10) + 1 / 2 :=
    py_round_le _
  have ht : (py_round ((n : ℚ) * (3 / 10)) : ℚ) ≤ (n : ℚ) * (3 / 10) + 1 / 2 :=
    py_round_le _
  cases u with
  | false =>
    have hn0 : (0 : ℚ) ≤ (n : ℚ) := Nat.cast_nonneg n
    have hlt : (py_round ((n : ℚ) * (3 / 10)) : ℚ) < ((n : ℤ) : ℚ) + 1 := by
      push_cast
      linarith
    have hZ : py_round ((n : ℚ) * (3 / 10)) < (n : ℤ) + 1 := by
      exact_mod_cast hlt
    simp only [num_val, num_tst, if_false, Bool.false_eq_true]
    omega
  | true =>
    match n, Nat.lt_or_ge n 2 with
    | 0, _ =>
      norm_num [num_val, num_tst, py_round]
    | 1, _ =>
      norm_num [num_val, num_tst, py_round]
    | (m + 2), _ =>
      have hm2 : (2 : ℚ) ≤ ((m + 2 : ℕ) : ℚ) := by
        push_cast
        linarith [Nat.cast_nonneg (α := ℚ) m]
      have hsum : (py_round (((m + 2 : ℕ) : ℚ) * (2 / 10)) : ℚ) +
          (py_round (((m + 2 : ℕ) : ℚ) * (3 / 10)) : ℚ) ≤ (((m + 2 : ℕ) : ℤ) : ℚ) := by
        push_cast at hv ht ⊢
        linarith
      have hZ : py_round (((m + 2 : ℕ) : ℚ) * (2 / 10)) +
          py_round (((m + 2 : ℕ) : ℚ) * (3 / 10)) ≤ ((m + 2 : ℕ) : ℤ) := by
        exact_mod_cast hsum
      simp only [num_val, num_tst, if_true]
      omega

/-- C6: `split_data` puts the first `round(0.2*N)` examples (0 when validation
is disabled) into the validation slice, the next `round(0.3*N)` into the test
slice, and the remaining `N - num_val - num_tst` into the training slice; the
three slices are an exhaustive, disjoint partition of the dataset.  `round` is
Python's round-half-to-even. -/
theorem c6 {α : Type} (dat : List α) (useVal : Bool) :
    (split_dat dat useVal).1.length = num_val dat.length useVal ∧
    (split_dat dat useVal).2.1.length = num_tst dat.length ∧
    (split_dat dat useVal).2.2.length =
      dat.length - num_val dat.length useVal - num_tst dat.length ∧
    (split_dat dat useVal).1.length + (split_dat dat useVal).2.1.length +
      (split_dat dat useVal).2.2.length = dat.length ∧
    (split_dat dat useVal).1 ++
      ((split_dat dat useVal).2.1 ++ (split_dat dat useVal).2.2) = dat ∧
    num_val dat.length false = 0 := by
  have hb := split_sizes_le dat.length useVal
  have h1 : (split_dat dat useVal).1.length = num_val dat.length useVal := by
    simp only [split_dat, List.length_take]
    omega
  have h2 : (split_dat dat useVal).2.1.length = num_tst dat.length := by
    simp only [split_dat, List.length_take, List.length_drop]
    omega
  have h3 : (split_dat dat useVal).2.2.length =
      dat.length - num_val dat.length useVal - num_tst dat.length := by
    simp only [split_dat, List.length_drop]
    omega
  refine ⟨h1, h2, h3, by omega, ?_, by simp [num_val]⟩
  simp only [split_dat]
  rw [← List.drop_drop, List.take_append_drop, List.take_append_drop]

/-! ## Claim theorems: C5 (row alignment) -/

theorem merge_row_cols (r : SplitRow) (n : ℕ) (h : r.ins.length = n) :
    row_in n (merge_row r) = r.ins ∧
    row_col n (merge_row r) = r.out ∧
    row_col (n + 1) (merge_row r) = r.raw ∧
    row_col (n + 2) (merge_row r) = r.oracle ∧
    row_col (n + 3) (merge_row r) = r.nf := by
  refine ⟨List.take_left' h, ?_, ?_, ?_, ?_⟩
  · rw [row_col, merge_row, List.getD_eq_getElem?_getD,
      List.getElem?_append_right (by omega),
      show n - r.ins.length = 0 from by omega]
    rfl
  · rw [row_col, merge_row, List.getD_eq_getElem?_getD,
      List.getElem?_append_right (by omega),
      show n + 1 - r.ins.length = 1 from by omega]
    rfl
  · rw [row_col, merge_row, List.getD_eq_getElem?_getD,
      List.getElem?_append_right (by omega),
      show n + 2 - r.ins.length = 2 from by omega]
    rfl
  · rw [row_col, merge_row, List.getD_eq_getElem?_getD,
      List.getElem?_append_right (by omega),
      show n + 3 - r.ins.length = 3 from by omega]
    rfl

/-- C5: the shuffle in `split_data` acts through one permutation on the merged
matrix, so after slicing the merged matrix back into the five parallel arrays,
row `i` of every one of the five outputs comes from the same original example
`p i`: alignment across input, label, raw label, oracle label and flow count
is never broken. -/
theorem c5 (rows : List SplitRow) (n : ℕ)
    (hn : ∀ r ∈ rows, r.ins.length = n)
    (p : Fin rows.length ≃ Fin rows.length) (i : Fin rows.length) :
    row_in n ((shuffle_merged rows p).getD i []) = (rows.get (p i)).ins ∧
    row_col n ((shuffle_merged rows p).getD i []) = (rows.get (p i)).out ∧
    row_col (n + 1) ((shuffle_merged rows p).getD i []) =
      (rows.get (p i)).raw ∧
    row_col (n + 2) ((shuffle_merged rows p).getD i []) =
      (rows.get (p i)).oracle ∧
    row_col (n + 3) ((shuffle_merged rows p).getD i []) =
      (rows.get (p i)).nf := by
  have hi : (i : ℕ) < (shuffle_merged rows p).length := by
    simp only [shuffle_merged, List.length_ofFn]
    exact i.isLt
  have hrow : (shuffle_merged rows p).getD i [] =
      merge_row (rows.get (p i)) := by
    rw [List.getD_eq_getElem?_getD, List.getElem?_eq_getElem hi]
    simp [shuffle_merged, List.getElem_ofFn]
  rw [hrow]
  exact merge_row_cols _ n (hn _ (List.get_mem rows _ (p i).isLt))

/-- Witness for `c5`: a one-row dataset with distinguishable tags in each of
the five arrays, shuffled by the identity permutation. -/
theorem c5_witness :
    row_in 1 ((shuffle_merged [⟨[5], 1, 2, 3, 4⟩]
      (Equiv.refl _)).getD (0 : ℕ) []) = [5] ∧
    row_col 1 ((shuffle_merged [⟨[5], 1, 2, 3, 4⟩]
      (Equiv.refl _)).getD (0 : ℕ) []) = 1 ∧
    row_col 2 ((shuffle_merged [⟨[5], 1, 2, 3, 4⟩]
      (Equiv.refl _)).getD (0 : ℕ) []) = 2 ∧
    row_col 3 ((shuffle_merged [⟨[5], 1, 2, 3, 4⟩]
      (Equiv.refl _)).getD (0 : ℕ) []) = 3 ∧
    row_col 4 ((shuffle_merged [⟨[5], 1, 2, 3, 4⟩]
      (Equiv.refl _)).getD (0 : ℕ) []) = 4 := by
  have h := c5 [⟨[5], 1, 2, 3, 4⟩] 1
    (fun r hr => by rw [List.mem_singleton.mp hr]; rfl)
    (Equiv.refl _) ⟨0, by decide⟩
  exact h

/-! ## Claim theorems: C7, C8 (early stopping) -/

theorem es_run_cons (thresh : ℚ) (patMax : ℤ) (s : TrainState) (l : ℚ)
    (ls : List ℚ) :
    es_run thresh patMax s (l :: ls) =
      if (val_step thresh patMax l s).pat ≤ 0 then some 1
      else (es_run thresh patMax (val_step thresh patMax l s) ls).map
        (fun k => k + 1) := rfl

theorem es_run_no_improve (thresh : ℚ) (patMax : ℤ) (b : ℚ) :
    ∀ (ls : List ℚ) (pt : ℤ) (ck : Option ℤ) (lv : ℤ),
      1 ≤ pt → pt.toNat ≤ ls.length →
      (∀ l ∈ ls, ¬((b - l) / b * 100 > thresh)) →
      es_run thresh patMax ⟨some b, pt, ck, lv⟩ ls = some pt.toNat := by
  intro ls
  induction ls with
  | nil =>
    intro pt ck lv h1 h2 _
    simp only [List.length_nil, Nat.le_zero] at h2
    omega
  | cons l ls ih =>
    intro pt ck lv h1 h2 hno
    have hstep : val_step thresh patMax l ⟨some b, pt, ck, lv⟩ =
        ⟨some b, pt - 1, ck,
          match ck with | some m => m | none => lv⟩ := by
      simp only [val_step, Option.getD_some]
      rw [if_neg (hno l (List.mem_cons_self _ _))]
    rw [es_run_cons, hstep]
    by_cases hp : pt - 1 ≤ 0
    · have hpt : pt = 1 := by omega
      subst hpt
      rw [if_pos (by omega : (1 : ℤ) - 1 ≤ 0)]
      rfl
    · rw [if_neg hp,
        ih (pt - 1) ck _ (by omega)
          (by simp only [List.length_cons] at h2; omega)
          (fun x hx => hno x (List.mem_cons_of_mem _ hx))]
      simp only [Option.map_some']
      congr 1
      omega

/-- C7: with early stopping, a non-negative improvement threshold and
`val_patience = patMax ≥ 1`, a validation-loss sequence whose passes never
satisfy the improvement test (the first loss seeding `los_val_min`) makes the
controller decrement patience on every pass and return as soon as it hits
zero: exactly `patMax` non-improving validation passes are consumed. -/
theorem c7 (thresh : ℚ) (patMax : ℕ) (ck : Option ℤ) (lv : ℤ)
    (l0 : ℚ) (rest : List ℚ)
    (hthresh : 0 ≤ thresh) (hpat : 1 ≤ patMax)
    (hlen : patMax ≤ (l0 :: rest).length)
    (hno : ∀ l ∈ l0 :: rest, ¬((l0 - l) / l0 * 100 > thresh)) :
    es_run thresh (patMax : ℤ) ⟨none, (patMax : ℤ), ck, lv⟩ (l0 :: rest) =
      some patMax := by
  have hprc : ¬((l0 - l0) / l0 * 100 > thresh) := by
    rw [sub_self, zero_div, zero_mul]
    exact not_lt.mpr hthresh
  have hstep : val_step thresh (patMax : ℤ) l0 ⟨none, (patMax : ℤ), ck, lv⟩ =
      ⟨some l0, (patMax : ℤ) - 1, ck,
        match ck with | some m => m | none => lv⟩ := by
    simp only [val_step, Option.getD_none]
    rw [if_neg hprc]
  rw [es_run_cons, hstep]
  by_cases hp : (patMax : ℤ) - 1 ≤ 0
  · have hpt : patMax = 1 := by omega
    subst hpt
    rw [if_pos (by omega : ((1 : ℕ) : ℤ) - 1 ≤ 0)]
  · rw [if_neg hp,
      es_run_no_improve thresh (patMax : ℤ) l0 rest ((patMax : ℤ) - 1) ck _
        (by omega)
        (by simp only [List.length_cons] at hlen; omega)
        (fun x hx => hno x (List.mem_cons_of_mem _ hx))]
    simp only [Option.map_some']
    congr 1
    omega

/-- Witness for `c7`: threshold 0, patience 2, and the constant loss sequence
`[1, 1]`; the controller stops after exactly 2 validation passes. -/
theorem c7_witness :
    es_run 0 ((2 : ℕ) : ℤ) ⟨none, ((2 : ℕ) : ℤ), none, 0⟩ [1, 1] =
      some 2 :=
  c7 0 2 none 0 1 [1] (by norm_num) (by norm_num) (by norm_num)
    (by intro l hl; fin_cases hl <;> norm_num)

/-- C8: at every validation pass, if the improvement test passes the
controller records the new best loss, resets patience to its maximum and
persists a checkpoint of the current model; otherwise it keeps the best loss,
decrements patience, leaves the checkpoint alone, and rolls the live model
back to the persisted checkpoint exactly when one exists. -/
theorem c8 (thresh : ℚ) (patMax : ℤ) (los : ℚ) (s : TrainState) :
    ((s.best.getD los - los) / s.best.getD los * 100 > thresh →
      val_step thresh patMax los s =
        { best := some los, pat := patMax, ckpt := some s.live,
          live := s.live }) ∧
    (¬((s.best.getD los - los) / s.best.getD los * 100 > thresh) →
      (val_step thresh patMax los s).best = some (s.best.getD los) ∧
      (val_step thresh patMax los s).pat = s.pat - 1 ∧
      (val_step thresh patMax los s).ckpt = s.ckpt ∧
      (∀ m, s.ckpt = some m → (val_step thresh patMax los s).live = m) ∧
      (s.ckpt = none → (val_step thresh patMax los s).live = s.live)) := by
  constructor
  · intro h
    simp only [val_step]
    rw [if_pos h]
  · intro h
    simp only [val_step]
    rw [if_neg h]
    refine ⟨rfl, rfl, rfl, fun m hm => ?_, fun hm => ?_⟩ <;> simp [hm]

/-- Witness for `c8`: an improving pass (threshold `-1`) persists the live
model `7` as checkpoint; a non-improving pass with checkpoint `9` decrements
patience and rolls the live model back to `9`. -/
theorem c8_witness :
    val_step (-1) 3 5 ⟨none, 3, none, 7⟩ =
      { best := some 5, pat := 3, ckpt := some 7, live := 7 } ∧
    (val_step 0 3 5 ⟨none, 2, some 9, 7⟩).pat = 1 ∧
    (val_step 0 3 5 ⟨none, 2, some 9, 7⟩).live = 9 :=
  ⟨(c8 (-1) 3 5 ⟨none, 3, none, 7⟩).1 (by norm_num),
   ((c8 0 3 5 ⟨none, 2, some 9, 7⟩).2 (by norm_num)).2.1,
   ((c8 0 3 5 ⟨none, 2, some 9, 7⟩).2 (by norm_num)).2.2.2.1 9 rfl⟩

/-! ## Claim theorems: C9 (retry policy) -/

theorem run_trials_loop_all_deg (f : ℕ → ℚ × ℚ) (aptsMax : ℕ) :
    ∀ (k apts : ℕ) (trls : ℤ) (ress : List (ℚ × ℚ)),
      aptsMax - apts = k → 0 < trls → apts ≤ aptsMax →
      (∀ i, apts ≤ i → i < aptsMax → (f i).1 = 100) →
      run_trials_loop f aptsMax trls apts ress = (aptsMax, ress) := by
  intro k
  induction k with
  | zero =>
    intro apts trls ress hk ht ha _
    have he : apts = aptsMax := by omega
    subst he
    rw [run_trials_loop, if_neg (by omega : ¬(0 < trls ∧ apts < apts))]
  | succ k ih =>
    intro apts trls ress hk ht ha hdeg
    have hlt : apts < aptsMax := by omega
    rw [run_trials_loop, if_pos ⟨ht, hlt⟩, if_pos (hdeg apts le_rfl hlt)]
    exact ih (apts + 1) trls ress (by omega) ht (by omega)
      (fun i hi1 hi2 => hdeg i (by omega) hi2)

theorem run_trials_loop_suffix (f : ℕ → ℚ × ℚ) (aptsMax : ℕ) :
    ∀ (k apts : ℕ) (trls : ℤ) (ress : List (ℚ × ℚ)),
      aptsMax - apts = k →
      ∃ ex, (run_trials_loop f aptsMax trls apts ress).2 = ress ++ ex := by
  intro k
  induction k with
  | zero =>
    intro apts trls ress hk
    refine ⟨[], ?_⟩
    rw [run_trials_loop, if_neg (by omega : ¬(0 < trls ∧ apts < aptsMax))]
    simp
  | succ k ih =>
    intro apts trls ress hk
    by_cases ht : 0 < trls
    · rw [run_trials_loop, if_pos ⟨ht, by omega⟩]
      by_cases hdeg : (f apts).1 = 100
      · rw [if_pos hdeg]
        exact ih (apts + 1) trls ress (by omega)
      · rw [if_neg hdeg]
        obtain ⟨ex, hex⟩ :=
          ih (apts + 1) (trls - 1) (ress ++ [f apts]) (by omega)
        exact ⟨[f apts] ++ ex, by rw [hex, List.append_assoc]⟩
    · refine ⟨[], ?_⟩
      rw [run_trials_loop, if_neg (by omega : ¬(0 < trls ∧ apts < aptsMax))]
      simp

theorem run_trials_loop_empty (f : ℕ → ℚ × ℚ) (aptsMax : ℕ) :
    ∀ (k apts : ℕ) (trls : ℤ) (ress : List (ℚ × ℚ)),
      aptsMax - apts = k → 0 < trls →
      (run_trials_loop f aptsMax trls apts ress).2 = [] →
      ∀ i, apts ≤ i → i < aptsMax → (f i).1 = 100 := by
  intro k
  induction k with
  | zero =>
    intro apts trls ress hk ht _ i hi1 hi2
    omega
  | succ k ih =>
    intro apts trls ress hk ht hemp
    have hlt : apts < aptsMax := by omega
    rw [run_trials_loop, if_pos ⟨ht, hlt⟩] at hemp
    by_cases hdeg : (f apts).1 = 100
    · rw [if_pos hdeg] at hemp
      intro i hi1 hi2
      rcases Nat.eq_or_lt_of_le hi1 with he | hgt
      · exact he ▸ hdeg
      · exact ih (apts + 1) trls ress (by omega) ht hemp i (by omega) hi2
    · rw [if_neg hdeg] at hemp
      obtain ⟨ex, hex⟩ := run_trials_loop_suffix f aptsMax k (apts + 1)
        (trls - 1) (ress ++ [f apts]) (by omega)
      rw [hex] at hemp
      simp at hemp

/-- C9: with at least one requested trial and at least one allowed attempt,
if every attempt returns the degenerate-failure accuracy 100 the orchestrator
invokes the trial function exactly `max_attempts` times and returns the
not-trainable sentinel (modelled as `none` for the NaN pair) without raising;
and whenever the loop collects at least one non-degenerate result it returns
`(1 - max accuracy, duration)` of the first collected trial with maximal
accuracy. -/
theorem c9 (f : ℕ → ℚ × ℚ) (confTrials : ℤ) (aptsMax : ℕ)
    (h1 : 1 ≤ confTrials) (h2 : 1 ≤ aptsMax) :
    ((∀ i, i < aptsMax → (f i).1 = 100) →
      (run_trials f confTrials aptsMax).1 = aptsMax ∧
      (run_trials f confTrials aptsMax).2 = none) ∧
    ((∃ i, i < aptsMax ∧ (f i).1 ≠ 100) →
      (run_trials_loop f aptsMax confTrials 0 []).2 ≠ [] ∧
      (run_trials f confTrials aptsMax).2 =
        some (1 - (max_by_acc (run_trials_loop f aptsMax confTrials 0 []).2).1,
          (max_by_acc (run_trials_loop f aptsMax confTrials 0 []).2).2)) := by
  constructor
  · intro hdeg
    have hL := run_trials_loop_all_deg f aptsMax aptsMax 0 confTrials []
      (by omega) (by omega) (by omega) (fun i _ hi => hdeg i hi)
    constructor
    · simp [run_trials, hL]
    · simp [run_trials, hL]
  · rintro ⟨i, hi, hne⟩
    have hne2 : (run_trials_loop f aptsMax confTrials 0 []).2 ≠ [] := by
      intro hemp
      exact hne (run_trials_loop_empty f aptsMax aptsMax 0 confTrials []
        (by omega) (by omega) hemp i (Nat.zero_le i) hi)
    have hempty : (run_trials_loop f aptsMax confTrials 0 []).2.isEmpty =
        false := by
      cases hc : (run_trials_loop f aptsMax confTrials 0 []).2 with
      | nil => exact absurd hc hne2
      | cons a as => rfl
    exact ⟨hne2, by simp [run_trials, hempty]⟩

/-- Witness for `c9`: the always-degenerate trial function makes exactly 2 of
2 allowed attempts and returns the sentinel. -/
theorem c9_witness :
    (run_trials (fun _ => ((100 : ℚ), 0)) 1 2).1 = 2 ∧
    (run_trials (fun _ => ((100 : ℚ), 0)) 1 2).2 = none :=
  (c9 (fun _ => ((100 : ℚ), 0)) 1 2 (by norm_num) (by norm_num)).1
    (fun i hi => rfl)

/-! ## Real list statistics lemmas (for the scaling claims) -/

theorem sum_map_div (xs : List ℝ) (c : ℝ) :
    (xs.map (fun x => x / c)).sum = xs.sum / c := by
  induction xs with
  | nil => simp
  | cons a as ih => simp [ih, add_div]

theorem sum_map_sub (xs : List ℝ) (m : ℝ) :
    (xs.map (fun x => x - m)).sum = xs.sum - xs.length * m := by
  induction xs with
  | nil => simp
  | cons a as ih =>
    simp only [List.map_cons, List.sum_cons, ih, List.length_cons]
    push_cast
    ring

theorem lmean_map_div (xs : List ℝ) (c : ℝ) :
    lmean (xs.map (fun x => x / c)) = lmean xs / c := by
  simp only [lmean, sum_map_div, List.length_map]
  rw [div_right_comm]

theorem lmean_map_center (xs : List ℝ) :
    lmean (xs.map (fun x => x - lmean xs)) = 0 := by
  rcases Nat.eq_zero_or_pos xs.length with h0 | hpos
  · rw [List.length_eq_zero] at h0
    subst h0
    simp [lmean]
  · have hn : (xs.length : ℝ) ≠ 0 := Nat.cast_ne_zero.mpr (by omega)
    unfold lmean
    rw [sum_map_sub, List.length_map,
      show xs.sum - (xs.length : ℝ) * (xs.sum / xs.length) = 0 from by
        field_simp]
    simp

theorem lmean_center_div (xs : List ℝ) (c : ℝ) :
    lmean (xs.map (fun x => (x - lmean xs) / c)) = 0 := by
  have hcomp : (fun x => (x - lmean xs) / c) =
      (fun y => y / c) ∘ (fun x => x - lmean xs) := rfl
  rw [hcomp, ← List.map_map, lmean_map_div, lmean_map_center, zero_div]

theorem lvar_nonneg (xs : List ℝ) : 0 ≤ lvar xs := by
  unfold lvar lmean
  apply div_nonneg
  · apply List.sum_nonneg
    intro x hx
    rcases List.mem_map.mp hx with ⟨y, _, rfl⟩
    positivity
  · exact Nat.cast_nonneg _

theorem lstd_eq_zero_iff (xs : List ℝ) : lstd xs = 0 ↔ lvar xs = 0 := by
  unfold lstd
  rw [Real.sqrt_eq_zero (lvar_nonneg xs)]

theorem sum_const_of_all_eq (xs : List ℝ) (c : ℝ) (h : ∀ x ∈ xs, x = c) :
    xs.sum = xs.length * c := by
  induction xs with
  | nil => simp
  | cons a as ih =>
    simp only [List.sum_cons, List.length_cons,
      ih (fun x hx => h x (List.mem_cons_of_mem a hx)),
      h a (List.mem_cons_self a as)]
    push_cast
    ring

theorem lmean_const (xs : List ℝ) (c : ℝ) (hne : xs ≠ [])
    (h : ∀ x ∈ xs, x = c) : lmean xs = c := by
  have hn : (xs.length : ℝ) ≠ 0 :=
    Nat.cast_ne_zero.mpr (by simpa [List.length_eq_zero] using hne)
  unfold lmean
  rw [sum_const_of_all_eq xs c h, mul_comm, mul_div_assoc, div_self hn,
    mul_one]

theorem lmean_of_all_zero (xs : List ℝ) (h : ∀ x ∈ xs, x = 0) :
    lmean xs = 0 := by
  unfold lmean
  rw [List.sum_eq_zero h]
  simp

theorem lvar_const (xs : List ℝ) (c : ℝ) (h : ∀ x ∈ xs, x = c) :
    lvar xs = 0 := by
  unfold lvar
  apply lmean_of_all_zero
  intro y hy
  rcases List.mem_map.mp hy with ⟨x, hx, rfl⟩
  have hm : lmean xs = c :=
    lmean_const xs c (List.ne_nil_of_mem hx) h
  rw [h x hx, hm, sub_self]
  ring

theorem lvar_center_div (xs : List ℝ) (c : ℝ) :
    lvar (xs.map (fun x => (x - lmean xs) / c)) = lvar xs / c ^ 2 := by
  unfold lvar
  simp only [lmean_center_div, sub_zero, List.map_map]
  have hcomp : ((fun y => y ^ 2) ∘ (fun x => (x - lmean xs) / c)) =
      (fun y => y / c ^ 2) ∘ (fun x => (x - lmean xs) ^ 2) := by
    funext x
    simp [Function.comp, div_pow]
  rw [hcomp, ← List.map_map, lmean_map_div]

/-! ## Claim theorems: C3 (standardize mode) -/

/-- C3: in standardize mode `scale_fets` derives one `(mean, std)` pair per
scaling group from the group's pooled values, shares it across every feature
of the group, and transforms each value to `(x - mean) / std`; on the pooled
values `[1,2,3,4,5]` the parameters are mean 3 and std `sqrt 2 ≈ 1.414`, and
the value 3 scales to 0. -/
theorem c3 (cols : List (List ℝ)) (grps : List ℕ) :
    (∀ p ∈ cols.zip grps,
      sclPrmStd (cols.zip grps) p =
        (lmean (pooledOf (cols.zip grps) p.2),
         lstd (pooledOf (cols.zip grps) p.2)) ∧
      (lstd (pooledOf (cols.zip grps) p.2) ≠ 0 →
        colOutStd (cols.zip grps) p =
          p.1.map (fun x =>
            (x - lmean (pooledOf (cols.zip grps) p.2)) /
              lstd (pooledOf (cols.zip grps) p.2)))) ∧
    scl_prms_std [[1, 2, 3, 4, 5]] [0] = [(3, Real.sqrt 2)] ∧
    (1.414 : ℝ) < Real.sqrt 2 ∧ Real.sqrt 2 < 1.415 ∧
    ((scale_fets_std [[1, 2, 3, 4, 5]] [0]).getD 0 []).getD 2 99 = 0 := by
  have hpool : pooledOf [(([1, 2, 3, 4, 5] : List ℝ), 0)] 0 =
      [1, 2, 3, 4, 5] := by
    simp [pooledOf, groupCols]
  have hm : lmean [(1 : ℝ), 2, 3, 4, 5] = 3 := by
    simp [lmean]
    norm_num
  have hv : lvar [(1 : ℝ), 2, 3, 4, 5] = 2 := by
    simp [lvar, hm, lmean]
    norm_num
  have hs : lstd [(1 : ℝ), 2, 3, 4, 5] = Real.sqrt 2 := by
    rw [lstd, hv]
  have hs0 : Real.sqrt 2 ≠ 0 :=
    ne_of_gt (Real.sqrt_pos.mpr (by norm_num))
  refine ⟨fun p hp => ⟨rfl, fun hσ => ?_⟩, ?_, ?_, ?_, ?_⟩
  · unfold colOutStd
    simp [stdScale, hσ]
  · simp [scl_prms_std, sclPrmStd, hpool, hm, hs]
  · rw [Real.lt_sqrt (by norm_num)]
    norm_num
  · rw [Real.sqrt_lt' (by norm_num)]
    norm_num
  · simp only [scale_fets_std, scaleRowsStd, List.zip_cons_cons,
      List.zip_nil_right, List.map_cons, List.map_nil, List.getD_cons_zero]
    unfold colOutStd
    rw [hpool, hm, hs]
    simp [stdScale, hs0]

/-- Witness for `c3`: the transform branch applied at the scenario group. -/
theorem c3_witness :
    colOutStd (([[1, 2, 3, 4, 5]] : List (List ℝ)).zip [0])
        ([1, 2, 3, 4, 5], 0) =
      [1, 2, 3, 4, 5].map (fun x =>
        (x - lmean (pooledOf (([[1, 2, 3, 4, 5]] : List (List ℝ)).zip [0]) 0)) /
          lstd (pooledOf (([[1, 2, 3, 4, 5]] : List (List ℝ)).zip [0]) 0)) := by
  have hpool : pooledOf (([[1, 2, 3, 4, 5]] : List (List ℝ)).zip [0]) 0 =
      [1, 2, 3, 4, 5] := by
    show pooledOf [(([1, 2, 3, 4, 5] : List ℝ), 0)] 0 = [1, 2, 3, 4, 5]
    simp [pooledOf, groupCols]
  have hv : lvar [(1 : ℝ), 2, 3, 4, 5] = 2 := by
    have hm : lmean [(1 : ℝ), 2, 3, 4, 5] = 3 := by
      simp [lmean]
      norm_num
    simp [lvar, hm, lmean]
    norm_num
  have hσ : lstd (pooledOf (([[1, 2, 3, 4, 5]] : List (List ℝ)).zip [0]) 0) ≠
      0 := by
    rw [hpool, lstd, hv]
    exact ne_of_gt (Real.sqrt_pos.mpr (by norm_num))
  exact ((c3 [[1, 2, 3, 4, 5]] [0]).1 ([1, 2, 3, 4, 5], 0) (by simp)).2 hσ

/-! ## Claim theorems: C4 (degenerate scaling) -/

theorem foldl_min_const (xs : List ℝ) (c : ℝ) :
    ∀ acc, acc = c → (∀ x ∈ xs, x = c) → xs.foldl min acc = c := by
  induction xs with
  | nil => intro acc hacc _; simpa using hacc
  | cons a as ih =>
    intro acc hacc h
    simp only [List.foldl_cons]
    exact ih _ (by rw [hacc, h a (List.mem_cons_self a as), min_self])
      (fun x hx => h x (List.mem_cons_of_mem a hx))

theorem foldl_max_const (xs : List ℝ) (c : ℝ) :
    ∀ acc, acc = c → (∀ x ∈ xs, x = c) → xs.foldl max acc = c := by
  induction xs with
  | nil => intro acc hacc _; simpa using hacc
  | cons a as ih =>
    intro acc hacc h
    simp only [List.foldl_cons]
    exact ih _ (by rw [hacc, h a (List.mem_cons_self a as), max_self])
      (fun x hx => h x (List.mem_cons_of_mem a hx))

theorem listMin_const (xs : List ℝ) (c : ℝ) (hne : xs ≠ [])
    (h : ∀ x ∈ xs, x = c) : listMin xs = c := by
  cases xs with
  | nil => exact absurd rfl hne
  | cons a as =>
    unfold listMin
    exact foldl_min_const as c a (h a (List.mem_cons_self a as))
      (fun x hx => h x (List.mem_cons_of_mem a hx))

theorem listMax_const (xs : List ℝ) (c : ℝ) (hne : xs ≠ [])
    (h : ∀ x ∈ xs, x = c) : listMax xs = c := by
  cases xs with
  | nil => exact absurd rfl hne
  | cons a as =>
    unfold listMax
    exact foldl_max_const as c a (h a (List.mem_cons_self a as))
      (fun x hx => h x (List.mem_cons_of_mem a hx))

/-- C4: when all pooled values of a feature's scaling group are one constant,
the output column of `scale_fets` for that feature is all zeros in both modes:
the `std = 0` and `min = max` guards take the zero branch and the division is
never reached. -/
theorem c4 (cols : List (List ℝ)) (grps : List ℕ) (c : ℝ)
    (p : List ℝ × ℕ) (hp : p ∈ cols.zip grps)
    (hconst : ∀ x ∈ pooledOf (cols.zip grps) p.2, x = c)
    (hne : ∀ col ∈ groupCols (cols.zip grps) p.2, col ≠ []) :
    colOutStd (cols.zip grps) p = p.1.map (fun _ => 0) ∧
    colOutRng (cols.zip grps) p = p.1.map (fun _ => 0) := by
  constructor
  · have hs : lstd (pooledOf (cols.zip grps) p.2) = 0 :=
      (lstd_eq_zero_iff _).mpr (lvar_const _ c hconst)
    unfold colOutStd
    rw [hs, show stdScale (lmean (pooledOf (cols.zip grps) p.2)) 0 =
      fun _ => (0 : ℝ) from by funext x; simp [stdScale]]
  · have hcolconst : ∀ col ∈ groupCols (cols.zip grps) p.2, ∀ x ∈ col,
        x = c := by
      intro col hcol x hx
      refine hconst x ?_
      unfold pooledOf
      exact List.mem_flatten.mpr ⟨col, hcol, hx⟩
    have hmem : p.1 ∈ groupCols (cols.zip grps) p.2 := by
      unfold groupCols
      exact List.mem_map.mpr ⟨p, List.mem_filter.mpr ⟨hp, by simp⟩, rfl⟩
    have hmapne : (groupCols (cols.zip grps) p.2).map listMin ≠ [] := by
      simp only [ne_eq, List.map_eq_nil_iff]
      exact List.ne_nil_of_mem hmem
    have hmapne2 : (groupCols (cols.zip grps) p.2).map listMax ≠ [] := by
      simp only [ne_eq, List.map_eq_nil_iff]
      exact List.ne_nil_of_mem hmem
    have hmin : rdcMin (groupCols (cols.zip grps) p.2) = c := by
      unfold rdcMin
      refine listMin_const _ c hmapne ?_
      intro y hy
      rcases List.mem_map.mp hy with ⟨col, hcol, rfl⟩
      exact listMin_const col c (hne col hcol) (hcolconst col hcol)
    have hmax : rdcMax (groupCols (cols.zip grps) p.2) = c := by
      unfold rdcMax
      refine listMax_const _ c hmapne2 ?_
      intro y hy
      rcases List.mem_map.mp hy with ⟨col, hcol, rfl⟩
      exact listMax_const col c (hne col hcol) (hcolconst col hcol)
    unfold colOutRng
    rw [hmin, hmax, show rngScale c c = fun _ => (0 : ℝ) from by
      funext x; simp [rngScale]]

/-- Witness for `c4`: the constant group `[[7, 7]]` scales to zeros in both
modes. -/
theorem c4_witness :
    colOutStd (([[7, 7]] : List (List ℝ)).zip [0]) ([7, 7], 0) =
      [(7 : ℝ), 7].map (fun _ => 0) ∧
    colOutRng (([[7, 7]] : List (List ℝ)).zip [0]) ([7, 7], 0) =
      [(7 : ℝ), 7].map (fun _ => 0) :=
  c4 [[7, 7]] [0] 7 ([7, 7], 0) (by simp)
    (by
      intro x hx
      simp [pooledOf, groupCols] at hx
      simp [hx])
    (by
      intro col hcol
      simp [groupCols] at hcol
      subst hcol
      simp)

/-! ## Claim theorems: C10 (scaling idempotence) -/

theorem zip_map_of_length_eq {γ : Type} (F : List ℝ × ℕ → γ) :
    ∀ (cols : List (List ℝ)) (grps : List ℕ), cols.length = grps.length →
      ((cols.zip grps).map F).zip grps =
        (cols.zip grps).map (fun p => (F p, p.2)) := by
  intro cols
  induction cols with
  | nil =>
    intro grps h
    simp
  | cons c cs ih =>
    intro grps h
    cases grps with
    | nil => simp at h
    | cons g gs =>
      simp only [List.zip_cons_cons, List.map_cons]
      rw [ih gs (by simpa using h)]

theorem groupCols_map (F : ℕ → List ℝ → List ℝ) (g : ℕ) :
    ∀ l : List (List ℝ × ℕ),
      groupCols (l.map (fun p => (F p.2 p.1, p.2))) g =
        (groupCols l g).map (F g) := by
  intro l
  induction l with
  | nil => rfl
  | cons p l ih =>
    simp only [List.map_cons]
    unfold groupCols
    simp only [List.filter_cons]
    cases hg : (p.2 == g) with
    | true =>
      have hgg : p.2 = g := by simpa using hg
      simp only [hg, if_true, List.map_cons]
      unfold groupCols at ih
      rw [ih, hgg]
    | false =>
      simp only [hg, Bool.false_eq_true, if_false]
      unfold groupCols at ih
      rw [ih]

theorem pooled_map (l : List (List ℝ × ℕ)) (f : ℕ → ℝ → ℝ) (g : ℕ) :
    pooledOf (l.map (fun p => (p.1.map (f p.2), p.2))) g =
      (pooledOf l g).map (f g) := by
  unfold pooledOf
  rw [groupCols_map (fun n xs => xs.map (f n)) g l,
    show (fun xs : List ℝ => xs.map (f g)) = List.map (f g) from rfl,
    ← List.map_flatten]

theorem std_second_pass (P : List ℝ) :
    (lstd P = 0 →
      lmean (P.map (stdScale (lmean P) (lstd P))) = 0 ∧
      lstd (P.map (stdScale (lmean P) (lstd P))) = 0) ∧
    (lstd P ≠ 0 →
      lmean (P.map (stdScale (lmean P) (lstd P))) = 0 ∧
      lstd (P.map (stdScale (lmean P) (lstd P))) = 1) := by
  constructor
  · intro h0
    have hmap : P.map (stdScale (lmean P) (lstd P)) = P.map (fun _ => 0) := by
      rw [h0, show stdScale (lmean P) 0 = fun _ => (0 : ℝ) from by
        funext x; simp [stdScale]]
    have hz : ∀ x ∈ P.map (fun _ => (0 : ℝ)), x = 0 := by
      intro x hx
      rcases List.mem_map.mp hx with ⟨y, _, rfl⟩
      rfl
    constructor
    · rw [hmap]
      exact lmean_of_all_zero _ hz
    · rw [hmap, lstd_eq_zero_iff]
      exact lvar_const _ 0 hz
  · intro hσ
    have hmap : P.map (stdScale (lmean P) (lstd P)) =
        P.map (fun x => (x - lmean P) / lstd P) := by
      simp [stdScale, hσ]
    constructor
    · rw [hmap]
      exact lmean_center_div P (lstd P)
    · rw [hmap]
      unfold lstd
      rw [lvar_center_div, Real.sq_sqrt (lvar_nonneg P),
        div_self (fun hv => hσ ((lstd_eq_zero_iff P).mpr hv)),
        Real.sqrt_one]

/-- C10: applying `scale_fets` in standardize mode to its own output with the
same scaling groups is the identity: every non-degenerate group of the first
output has pooled mean 0 and pooled std 1 (so the second transform changes
nothing), and every degenerate group is all zeros and maps to zeros again. -/
theorem c10 (cols : List (List ℝ)) (grps : List ℕ)
    (h : cols.length = grps.length) :
    scale_fets_std (scale_fets_std cols grps) grps = scale_fets_std cols grps ∧
    (∀ g, lstd (pooledOf (cols.zip grps) g) ≠ 0 →
      lmean (pooledOf ((scale_fets_std cols grps).zip grps) g) = 0 ∧
      lstd (pooledOf ((scale_fets_std cols grps).zip grps) g) = 1) := by
  have hA : (scale_fets_std cols grps).zip grps =
      (cols.zip grps).map (fun p =>
        (p.1.map (stdScale (lmean (pooledOf (cols.zip grps) p.2))
          (lstd (pooledOf (cols.zip grps) p.2))), p.2)) :=
    zip_map_of_length_eq (colOutStd (cols.zip grps)) cols grps h
  have hB : ∀ g, pooledOf ((scale_fets_std cols grps).zip grps) g =
      (pooledOf (cols.zip grps) g).map
        (stdScale (lmean (pooledOf (cols.zip grps) g))
          (lstd (pooledOf (cols.zip grps) g))) := by
    intro g
    rw [hA]
    exact pooled_map (cols.zip grps)
      (fun n => stdScale (lmean (pooledOf (cols.zip grps) n))
        (lstd (pooledOf (cols.zip grps) n))) g
  constructor
  · show scaleRowsStd ((scale_fets_std cols grps).zip grps) =
      scale_fets_std cols grps
    rw [hA]
    unfold scaleRowsStd
    rw [List.map_map]
    show (cols.zip grps).map _ = (cols.zip grps).map (colOutStd (cols.zip grps))
    apply List.map_congr_left
    intro p hp
    simp only [Function.comp]
    unfold colOutStd
    simp only []
    rw [← hA]
    rw [hB p.2]
    by_cases hs : lstd (pooledOf (cols.zip grps) p.2) = 0
    · have hparams := (std_second_pass (pooledOf (cols.zip grps) p.2)).1 hs
      rw [hparams.1, hparams.2, List.map_map, hs,
        show stdScale 0 0 ∘ stdScale (lmean (pooledOf (cols.zip grps) p.2)) 0 =
          fun _ => (0 : ℝ) from by funext x; simp [stdScale],
        show stdScale (lmean (pooledOf (cols.zip grps) p.2)) 0 =
          fun _ => (0 : ℝ) from by funext x; simp [stdScale]]
    · have hparams := (std_second_pass (pooledOf (cols.zip grps) p.2)).2 hs
      rw [hparams.1, hparams.2, List.map_map,
        show stdScale 0 1 ∘ stdScale (lmean (pooledOf (cols.zip grps) p.2))
            (lstd (pooledOf (cols.zip grps) p.2)) =
          stdScale (lmean (pooledOf (cols.zip grps) p.2))
            (lstd (pooledOf (cols.zip grps) p.2)) from by
          funext x; simp [stdScale]]
  · intro g hσ
    rw [hB g]
    exact (std_second_pass (pooledOf (cols.zip grps) g)).2 hσ

/-- Witness for `c10`: the scenario matrix `[[1,2,3,4,5]]` with one scaling
group is unchanged by a second standardize pass. -/
theorem c10_witness :
    scale_fets_std (scale_fets_std [[1, 2, 3, 4, 5]] [0]) [0] =
      scale_fets_std [[1, 2, 3, 4, 5]] [0] :=
  (c10 [[1, 2, 3, 4, 5]] [0] rfl).1
